import Mathlib

/-!
Shallow embedding of `src/logistic_regression.py` (educational gradient-descent
logistic regression over dense numpy arrays), modelled over exact reals.
Numpy 1-D arrays become `List ℝ`, 2-D arrays become `List (List ℝ)`, and the
`while not converged` loop becomes iteration of a guarded step function on an
explicit state record.
-/

namespace MLScratch

/-- Elementwise `np.dot` of two 1-D arrays: sum of pairwise products. -/
def dotv (a b : List ℝ) : ℝ := (List.zipWith (· * ·) a b).sum

/-- `np.dot(X, w)` for a 2-D `X` and 1-D `w`: one dot product per row. -/
def matVec (X : List (List ℝ)) (w : List ℝ) : List ℝ :=
  X.map fun row => dotv row w

/-- `X.shape[1]`: the column count of the 2-D array, read off the first row. -/
def shape1 (X : List (List ℝ)) : ℕ := (X.headD []).length

/-- `np.dot(X.T, v)`: entry `j` is the dot product of column `j` of `X` with `v`. -/
def matTvec (X : List (List ℝ)) (v : List ℝ) : List ℝ :=
  (List.range (shape1 X)).map fun j =>
    (List.zipWith (fun row c => row.getD j 0 * c) X v).sum

/-- Elementwise subtraction of 1-D arrays (`a - b` in numpy). -/
def vsub (a b : List ℝ) : List ℝ := List.zipWith (· - ·) a b

/-- Scalar times 1-D array (`c * a` in numpy). -/
def vscale (c : ℝ) (a : List ℝ) : List ℝ := a.map fun t => c * t

/-- `.mean()` of a 1-D array: sum divided by length. -/
noncomputable def lmean (l : List ℝ) : ℝ := l.sum / l.length

/-- `sigmoid_function` on one scalar: `1/(1+np.exp(-z))`. -/
noncomputable def sigmoid (z : ℝ) : ℝ := 1 / (1 + Real.exp (-z))

/-- `def sigmoid_function(z): return 1/(1+np.exp(-z))` applied to a 1-D array
(numpy broadcasts elementwise). -/
noncomputable def sigmoid_function (z : List ℝ) : List ℝ := z.map sigmoid

/-- `def cost_function(h,y): return (-y*np.log(h)-(1-y)*np.log(1-h)).mean()`. -/
noncomputable def cost_function (h y : List ℝ) : ℝ :=
  lmean (List.zipWith (fun hi yi => -yi * Real.log hi - (1 - yi) * Real.log (1 - hi)) h y)

/-- Interpreter state of the `while not converged` loop in `logistic_reg`:
the weight vector `theta`, the `iterations` counter (a Python int, so `ℤ`),
the `converged` flag, and the stream of diagnostic loss values printed so far. -/
structure LRState where
  theta : List ℝ
  iterations : ℤ
  converged : Bool
  emitted : List ℝ

/-- One pass of the loop body of `logistic_reg` (source lines 42-58):
compute `z`, `h`, the gradient, update `theta`, recompute `z` and `h` from the
updated weights, evaluate and print the cost, increment `iterations`, and set
`converged` when `iterations == max_iterations`. -/
noncomputable def loopBody (alpha : ℝ) (X : List (List ℝ)) (y : List ℝ)
    (max_iterations : ℤ) (s : LRState) : LRState :=
  let z := matVec X s.theta
  let h := sigmoid_function z
  let gradient := (matTvec X (vsub h y)).map fun t => t / (y.length : ℝ)
  let theta := vsub s.theta (vscale alpha gradient)
  let z2 := matVec X theta
  let h2 := sigmoid_function z2
  let e := cost_function h2 y
  let iterations := s.iterations + 1
  { theta := theta
    iterations := iterations
    converged := if iterations = max_iterations then true else s.converged
    emitted := s.emitted ++ [e] }

/-- The guarded step: `while not converged` runs the body only while the flag
is unset; once `converged` holds the state is left untouched. -/
noncomputable def loopStep (alpha : ℝ) (X : List (List ℝ)) (y : List ℝ)
    (max_iterations : ℤ) (s : LRState) : LRState :=
  if s.converged then s else loopBody alpha X y max_iterations s

/-- Initial state of `logistic_reg`: `theta = np.zeros(X.shape[1])`,
`iterations = 0`, `converged = False`, nothing printed yet. -/
def initState (X : List (List ℝ)) : LRState :=
  { theta := List.replicate (shape1 X) 0
    iterations := 0
    converged := false
    emitted := [] }

/-- The loop of `logistic_reg` after `k` guarded steps from the initial state. -/
noncomputable def run (alpha : ℝ) (X : List (List ℝ)) (y : List ℝ)
    (max_iterations : ℤ) (k : ℕ) : LRState :=
  (loopStep alpha X y max_iterations)^[k] (initState X)

/-- The value `logistic_reg(alpha, X, y, max_iterations)` returns: the weight
vector held at the loop's exit.  The termination theorem below shows the loop
exits after exactly `max_iterations` body executions when `max_iterations ≥ 1`,
so the returned `theta` is the one after `max_iterations.toNat` steps. -/
noncomputable def logistic_reg (alpha : ℝ) (X : List (List ℝ)) (y : List ℝ)
    (max_iterations : ℤ) : List ℝ :=
  (run alpha X y max_iterations max_iterations.toNat).theta

/-- `def predict_prob(X): return sigmoid_function(np.dot(X, theta))`, with the
trained weights passed explicitly (the source closes over `theta`). -/
noncomputable def predict_prob (X : List (List ℝ)) (theta : List ℝ) : List ℝ :=
  sigmoid_function (matVec X theta)

/-- The pure weight update performed once per loop iteration (lines 42-45). -/
noncomputable def thetaUpd (alpha : ℝ) (X : List (List ℝ)) (y : List ℝ)
    (theta : List ℝ) : List ℝ :=
  vsub theta (vscale alpha
    ((matTvec X (vsub (sigmoid_function (matVec X theta)) y)).map
      fun t => t / (y.length : ℝ)))

/-- The mean cross-entropy training loss at a given weight vector, exactly as
the loop's diagnostic computes it (lines 47-49). -/
noncomputable def trainLoss (X : List (List ℝ)) (y : List ℝ) (theta : List ℝ) : ℝ :=
  cost_function (sigmoid_function (matVec X theta)) y

/-- Variant of the loop body with the diagnostic recomputation of `h` and the
cross-entropy loss evaluation (lines 47-51) removed. -/
noncomputable def loopBodyNoDiag (alpha : ℝ) (X : List (List ℝ)) (y : List ℝ)
    (max_iterations : ℤ) (s : LRState) : LRState :=
  let z := matVec X s.theta
  let h := sigmoid_function z
  let gradient := (matTvec X (vsub h y)).map fun t => t / (y.length : ℝ)
  let theta := vsub s.theta (vscale alpha gradient)
  let iterations := s.iterations + 1
  { theta := theta
    iterations := iterations
    converged := if iterations = max_iterations then true else s.converged
    emitted := s.emitted }

/-- Guarded step of the diagnostic-free variant. -/
noncomputable def loopStepNoDiag (alpha : ℝ) (X : List (List ℝ)) (y : List ℝ)
    (max_iterations : ℤ) (s : LRState) : LRState :=
  if s.converged then s else loopBodyNoDiag alpha X y max_iterations s

/-- The diagnostic-free variant of the loop after `k` guarded steps. -/
noncomputable def runNoDiag (alpha : ℝ) (X : List (List ℝ)) (y : List ℝ)
    (max_iterations : ℤ) (k : ℕ) : LRState :=
  (loopStepNoDiag alpha X y max_iterations)^[k] (initState X)

/-- The diagnostic-free variant's return value. -/
noncomputable def logistic_regNoDiag (alpha : ℝ) (X : List (List ℝ)) (y : List ℝ)
    (max_iterations : ℤ) : List ℝ :=
  (runNoDiag alpha X y max_iterations max_iterations.toNat).theta

/-- Following the spec's wording (§4.1 step 1): the linear score of sample `i`
is `z_i = Σ_j X_{ij} · w_j` over the `n` features. -/
noncomputable def specZ (X : List (List ℝ)) (w : List ℝ) (n : ℕ) (i : ℕ) : ℝ :=
  ∑ j ∈ Finset.range n, (X.getD i []).getD j 0 * w.getD j 0

/-- Following the spec's wording (§4.1 step 2): the predicted probability of
sample `i` is the logistic transform `h_i = 1 / (1 + exp (-z_i))`. -/
noncomputable def specH (X : List (List ℝ)) (w : List ℝ) (n : ℕ) (i : ℕ) : ℝ :=
  1 / (1 + Real.exp (-(specZ X w n i)))

/-- Following the spec's wording (§4.1 step 3): component `j` of the gradient
of the mean cross-entropy loss is `(Xᵗ · (h - y))_j / n_samples`. -/
noncomputable def specGradient (X : List (List ℝ)) (y w : List ℝ) (m n : ℕ)
    (j : ℕ) : ℝ :=
  (∑ i ∈ Finset.range m, (X.getD i []).getD j 0 * (specH X w n i - y.getD i 0)) / m

/-- Following the spec's wording (§4.1 step 4): the updated weight vector is
`w - learning_rate * gradient`, componentwise over the `n` features. -/
noncomputable def specUpdatedWeights (alpha : ℝ) (X : List (List ℝ)) (y w : List ℝ)
    (m n : ℕ) : List ℝ :=
  (List.range n).map fun j => w.getD j 0 - alpha * specGradient X y w m n j

/-- The softplus function `log (1 + eᵗ)`, the per-sample integral of the
sigmoid; the cross-entropy loss of sample `i` equals `phi z_i - y_i z_i`. -/
noncomputable def phi (t : ℝ) : ℝ := Real.log (1 + Real.exp t)

/-- Well-formedness of a 2-D array: `m` rows, each of length `n`. -/
def Wf (X : List (List ℝ)) (m n : ℕ) : Prop :=
  X.length = m ∧ ∀ r ∈ X, r.length = n

instance (X : List (List ℝ)) (m n : ℕ) : Decidable (Wf X m n) := by
  unfold Wf; infer_instance

/-! ### Field equations for one loop-body pass -/

lemma loopStep_of_converged {alpha : ℝ} {X : List (List ℝ)} {y : List ℝ} {M : ℤ}
    {s : LRState} (h : s.converged = true) : loopStep alpha X y M s = s := by
  simp [loopStep, h]

lemma loopStep_of_not_converged {alpha : ℝ} {X : List (List ℝ)} {y : List ℝ} {M : ℤ}
    {s : LRState} (h : s.converged = false) :
    loopStep alpha X y M s = loopBody alpha X y M s := by
  simp [loopStep, h]

lemma loopBody_theta (alpha : ℝ) (X : List (List ℝ)) (y : List ℝ) (M : ℤ) (s : LRState) :
    (loopBody alpha X y M s).theta = thetaUpd alpha X y s.theta := rfl

lemma loopBody_iterations (alpha : ℝ) (X : List (List ℝ)) (y : List ℝ) (M : ℤ)
    (s : LRState) : (loopBody alpha X y M s).iterations = s.iterations + 1 := rfl

lemma loopBody_converged (alpha : ℝ) (X : List (List ℝ)) (y : List ℝ) (M : ℤ)
    (s : LRState) :
    (loopBody alpha X y M s).converged =
      if s.iterations + 1 = M then true else s.converged := rfl

lemma loopBody_emitted (alpha : ℝ) (X : List (List ℝ)) (y : List ℝ) (M : ℤ)
    (s : LRState) :
    (loopBody alpha X y M s).emitted =
      s.emitted ++ [trainLoss X y (thetaUpd alpha X y s.theta)] := rfl

lemma run_zero (alpha : ℝ) (X : List (List ℝ)) (y : List ℝ) (M : ℤ) :
    run alpha X y M 0 = initState X := rfl

lemma run_succ (alpha : ℝ) (X : List (List ℝ)) (y : List ℝ) (M : ℤ) (k : ℕ) :
    run alpha X y M (k + 1) = loopStep alpha X y M (run alpha X y M k) := by
  rw [run, Function.iterate_succ_apply']; rfl

/-! ### Characterization of the loop trace -/

/-- Up to and including step `max_iterations`, the state after `j` guarded steps
is completely explicit: `theta` is the `j`-fold weight update of the zero
vector, the counter equals `j`, the flag is set exactly when `j` has reached
`max_iterations`, and `j` loss values have been printed. -/
lemma run_char {alpha : ℝ} {X : List (List ℝ)} {y : List ℝ} {M : ℤ} (hM : 1 ≤ M) :
    ∀ j, j ≤ M.toNat →
      (run alpha X y M j).theta = (thetaUpd alpha X y)^[j] (initState X).theta ∧
      (run alpha X y M j).iterations = j ∧
      (run alpha X y M j).converged = decide ((j : ℤ) = M) ∧
      (run alpha X y M j).emitted.length = j := by
  intro j
  induction j with
  | zero =>
    intro _
    refine ⟨rfl, rfl, ?_, rfl⟩
    have : (0 : ℤ) ≠ M := by omega
    simp [run_zero, initState, this]
  | succ j ih =>
    intro hj
    obtain ⟨ht, hi, hc, he⟩ := ih (Nat.le_of_succ_le hj)
    have hne : ((j : ℤ) ≠ M) := by omega
    have hcf : (run alpha X y M j).converged = false := by
      rw [hc]; simp [hne]
    have hstep : run alpha X y M (j + 1) = loopBody alpha X y M (run alpha X y M j) := by
      rw [run_succ, loopStep_of_not_converged hcf]
    rw [hstep]
    refine ⟨?_, ?_, ?_, ?_⟩
    · rw [loopBody_theta, ht]
      exact (Function.iterate_succ_apply' _ _ _).symm
    · rw [loopBody_iterations, hi]; push_cast; ring
    · rw [loopBody_converged, hi, hcf]
      rcases eq_or_ne ((j : ℤ) + 1) M with h | h <;> simp [h]
    · rw [loopBody_emitted]
      simp [he]

/-- With a non-positive iteration bound the flag is never set: after every
number of steps the loop is still going, the counter having passed every
non-positive value before its first equality check. -/
lemma run_char_nonpos {alpha : ℝ} {X : List (List ℝ)} {y : List ℝ} {M : ℤ} (hM : M ≤ 0) :
    ∀ k, (run alpha X y M k).converged = false ∧
      (run alpha X y M k).iterations = k ∧
      (run alpha X y M k).theta = (thetaUpd alpha X y)^[k] (initState X).theta := by
  intro k
  induction k with
  | zero => exact ⟨rfl, rfl, rfl⟩
  | succ k ih =>
    obtain ⟨hc, hi, ht⟩ := ih
    have hstep : run alpha X y M (k + 1) = loopBody alpha X y M (run alpha X y M k) := by
      rw [run_succ, loopStep_of_not_converged hc]
    have hne : (run alpha X y M k).iterations + 1 ≠ M := by omega
    rw [hstep]
    refine ⟨?_, ?_, ?_⟩
    · rw [loopBody_converged, hc]; simp [hne]
    · rw [loopBody_iterations, hi]; push_cast; ring
    · rw [loopBody_theta, ht]
      exact (Function.iterate_succ_apply' _ _ _).symm

/-- Once the flag is set the loop makes no further move. -/
lemma run_stationary {alpha : ℝ} {X : List (List ℝ)} {y : List ℝ} {M : ℤ} {k : ℕ}
    (h : (run alpha X y M k).converged = true) :
    ∀ j, run alpha X y M (j + k) = run alpha X y M k := by
  intro j
  induction j with
  | zero => rw [Nat.zero_add]
  | succ j ih =>
    have h2 : j + 1 + k = (j + k) + 1 := by ring
    rw [h2, run_succ, ih, loopStep_of_converged h]

/-! ### Shape lemmas -/

lemma length_matTvec (X : List (List ℝ)) (v : List ℝ) :
    (matTvec X v).length = shape1 X := by
  simp [matTvec]

lemma length_thetaUpd (alpha : ℝ) (X : List (List ℝ)) (y : List ℝ) (theta : List ℝ) :
    (thetaUpd alpha X y theta).length = min theta.length (shape1 X) := by
  simp [thetaUpd, vsub, vscale, length_matTvec]

lemma shape1_eq {X : List (List ℝ)} {m n : ℕ} (hX : Wf X m n) (hm : 1 ≤ m) :
    shape1 X = n := by
  obtain ⟨hlen, hrow⟩ := hX
  cases X with
  | nil => simp at hlen; omega
  | cons r t => exact hrow r (List.mem_cons_self r t)

lemma run_theta_length (alpha : ℝ) (X : List (List ℝ)) (y : List ℝ) (M : ℤ) :
    ∀ k, (run alpha X y M k).theta.length = shape1 X := by
  intro k
  induction k with
  | zero => simp [run_zero, initState]
  | succ k ih =>
    cases hc : (run alpha X y M k).converged with
    | true => rw [run_succ, loopStep_of_converged hc]; exact ih
    | false =>
      rw [run_succ, loopStep_of_not_converged hc, loopBody_theta, length_thetaUpd, ih,
        min_self]

/-! ### The diagnostic stream does not feed back into the algorithm -/

/-- One guarded step: states that agree on `theta`, `iterations` and
`converged` (but may carry different diagnostic histories) still agree on
those three fields afterwards. -/
lemma loopStep_emitted_indep {alpha : ℝ} {X : List (List ℝ)} {y : List ℝ} {M : ℤ}
    {s t : LRState} (h1 : s.theta = t.theta) (h2 : s.iterations = t.iterations)
    (h3 : s.converged = t.converged) :
    (loopStep alpha X y M s).theta = (loopStep alpha X y M t).theta ∧
    (loopStep alpha X y M s).iterations = (loopStep alpha X y M t).iterations ∧
    (loopStep alpha X y M s).converged = (loopStep alpha X y M t).converged := by
  cases hc : s.converged with
  | true =>
    have hct : t.converged = true := by rw [← h3]; exact hc
    rw [loopStep_of_converged hc, loopStep_of_converged hct]
    exact ⟨h1, h2, h3⟩
  | false =>
    have hct : t.converged = false := by rw [← h3]; exact hc
    rw [loopStep_of_not_converged hc, loopStep_of_not_converged hct]
    refine ⟨?_, ?_, ?_⟩
    · rw [loopBody_theta, loopBody_theta, h1]
    · rw [loopBody_iterations, loopBody_iterations, h2]
    · rw [loopBody_converged, loopBody_converged, h2, h3]

lemma iterate_emitted_indep (alpha : ℝ) (X : List (List ℝ)) (y : List ℝ) (M : ℤ) :
    ∀ (k : ℕ) (s t : LRState), s.theta = t.theta → s.iterations = t.iterations →
      s.converged = t.converged →
      ((loopStep alpha X y M)^[k] s).theta = ((loopStep alpha X y M)^[k] t).theta ∧
      ((loopStep alpha X y M)^[k] s).iterations
        = ((loopStep alpha X y M)^[k] t).iterations ∧
      ((loopStep alpha X y M)^[k] s).converged
        = ((loopStep alpha X y M)^[k] t).converged := by
  intro k
  induction k with
  | zero => intro s t h1 h2 h3; exact ⟨h1, h2, h3⟩
  | succ k ih =>
    intro s t h1 h2 h3
    simp only [Function.iterate_succ_apply]
    obtain ⟨g1, g2, g3⟩ := loopStep_emitted_indep (M := M) h1 h2 h3
    exact ih _ _ g1 g2 g3

/-! ### The diagnostic-free variant tracks the original -/

lemma loopStepNoDiag_of_converged {alpha : ℝ} {X : List (List ℝ)} {y : List ℝ} {M : ℤ}
    {s : LRState} (h : s.converged = true) : loopStepNoDiag alpha X y M s = s := by
  simp [loopStepNoDiag, h]

lemma loopStepNoDiag_of_not_converged {alpha : ℝ} {X : List (List ℝ)} {y : List ℝ}
    {M : ℤ} {s : LRState} (h : s.converged = false) :
    loopStepNoDiag alpha X y M s = loopBodyNoDiag alpha X y M s := by
  simp [loopStepNoDiag, h]

lemma loopBodyNoDiag_theta (alpha : ℝ) (X : List (List ℝ)) (y : List ℝ) (M : ℤ)
    (s : LRState) : (loopBodyNoDiag alpha X y M s).theta = thetaUpd alpha X y s.theta := rfl

lemma loopBodyNoDiag_iterations (alpha : ℝ) (X : List (List ℝ)) (y : List ℝ) (M : ℤ)
    (s : LRState) : (loopBodyNoDiag alpha X y M s).iterations = s.iterations + 1 := rfl

lemma loopBodyNoDiag_converged (alpha : ℝ) (X : List (List ℝ)) (y : List ℝ) (M : ℤ)
    (s : LRState) :
    (loopBodyNoDiag alpha X y M s).converged =
      if s.iterations + 1 = M then true else s.converged := rfl

lemma runNoDiag_agree (alpha : ℝ) (X : List (List ℝ)) (y : List ℝ) (M : ℤ) :
    ∀ k, (runNoDiag alpha X y M k).theta = (run alpha X y M k).theta ∧
      (runNoDiag alpha X y M k).iterations = (run alpha X y M k).iterations ∧
      (runNoDiag alpha X y M k).converged = (run alpha X y M k).converged := by
  intro k
  induction k with
  | zero => exact ⟨rfl, rfl, rfl⟩
  | succ k ih =>
    obtain ⟨h1, h2, h3⟩ := ih
    have hstepN : runNoDiag alpha X y M (k + 1)
        = loopStepNoDiag alpha X y M (runNoDiag alpha X y M k) := by
      rw [runNoDiag, Function.iterate_succ_apply']; rfl
    have hstep : run alpha X y M (k + 1) = loopStep alpha X y M (run alpha X y M k) :=
      run_succ alpha X y M k
    cases hc : (run alpha X y M k).converged with
    | true =>
      have hcN : (runNoDiag alpha X y M k).converged = true := by rw [h3]; exact hc
      rw [hstepN, hstep, loopStep_of_converged hc, loopStepNoDiag_of_converged hcN]
      exact ⟨h1, h2, h3⟩
    | false =>
      have hcN : (runNoDiag alpha X y M k).converged = false := by rw [h3]; exact hc
      rw [hstepN, hstep, loopStep_of_not_converged hc,
        loopStepNoDiag_of_not_converged hcN]
      refine ⟨?_, ?_, ?_⟩
      · rw [loopBodyNoDiag_theta, loopBody_theta, h1]
      · rw [loopBodyNoDiag_iterations, loopBody_iterations, h2]
      · rw [loopBodyNoDiag_converged, loopBody_converged, h2, h3]

/-! ### Claim theorems: loop control and observable behaviour -/

/-- **C2**: for every input with `max_iterations ≥ 1` the training loop of
`logistic_reg` terminates with the `converged` flag set after exactly
`max_iterations` passes, having performed exactly `max_iterations` weight
updates; before that point the flag is never set, and afterwards the state no
longer moves.  The statement quantifies over all data `alpha`, `X`, `y`, so the
exit point depends only on the iteration counter, never on a loss value,
gradient norm or tolerance. -/
theorem logistic_reg_terminates_after_exactly_max_iterations
    (alpha : ℝ) (X : List (List ℝ)) (y : List ℝ) (M : ℤ) (hM : 1 ≤ M) :
    (run alpha X y M M.toNat).converged = true ∧
    (∀ j, j < M.toNat → (run alpha X y M j).converged = false) ∧
    (run alpha X y M M.toNat).iterations = M ∧
    (run alpha X y M M.toNat).theta
      = (thetaUpd alpha X y)^[M.toNat] (initState X).theta ∧
    ∀ k, run alpha X y M (k + M.toNat) = run alpha X y M M.toNat := by
  obtain ⟨ht, hi, hc, _⟩ := run_char hM M.toNat le_rfl
  have hconv : (run alpha X y M M.toNat).converged = true := by
    rw [hc]
    simp only [decide_eq_true_eq]
    omega
  refine ⟨hconv, ?_, ?_, ht, run_stationary hconv⟩
  · intro j hj
    obtain ⟨_, _, hcj, _⟩ := run_char hM j (le_of_lt hj)
    rw [hcj]
    simp only [decide_eq_false_iff_not]
    omega
  · rw [hi]; omega

/-- Witness for C2 at `alpha = 1`, `X = [[1]]`, `y = [0]`, `max_iterations = 1`. -/
theorem logistic_reg_terminates_witness :
    (1 : ℤ) ≤ 1 ∧ (run 1 [[1]] [(0 : ℝ)] 1 (Int.toNat 1)).converged = true :=
  ⟨by decide,
    (logistic_reg_terminates_after_exactly_max_iterations 1 [[1]] [(0 : ℝ)] 1
      (by decide)).1⟩

/-- **C3**: the weight vector starts as the all-zero vector of length
`n_features` (the feature matrix's column count, including `n_features = 1`),
keeps that length after every iteration, and the returned vector has that
length. -/
theorem weight_vector_length_invariant (alpha : ℝ) (X : List (List ℝ)) (y : List ℝ)
    (M : ℤ) {m n : ℕ} (hX : Wf X m n) (hm : 1 ≤ m) :
    (initState X).theta = List.replicate n 0 ∧
    (∀ k, (run alpha X y M k).theta.length = n) ∧
    (logistic_reg alpha X y M).length = n := by
  have hs := shape1_eq hX hm
  refine ⟨?_, ?_, ?_⟩
  · show List.replicate (shape1 X) (0 : ℝ) = _
    rw [hs]
  · intro k; rw [run_theta_length, hs]
  · rw [logistic_reg, run_theta_length, hs]

/-- Witness for C3 on the single-feature matrix `X = [[1]]`. -/
theorem weight_vector_length_witness :
    Wf [[(1 : ℝ)]] 1 1 ∧ 1 ≤ 1 ∧ (logistic_reg 1 [[(1 : ℝ)]] [0] 3).length = 1 :=
  ⟨by decide, le_rfl,
    (weight_vector_length_invariant 1 [[(1 : ℝ)]] [0] 3 (by decide) le_rfl).2.2⟩

/-- **C4**: `logistic_reg` is deterministic — two runs on equal `alpha`, `X`,
`y`, `max_iterations` return equal weight vectors, and the only other loop
state, the diagnostic stream, never feeds back: iterating the loop from two
initial states that differ only in the printed history yields the same
weights. -/
theorem logistic_reg_deterministic (alpha₁ alpha₂ : ℝ) (X₁ X₂ : List (List ℝ))
    (y₁ y₂ : List ℝ) (M₁ M₂ : ℤ) (ha : alpha₁ = alpha₂) (hX : X₁ = X₂)
    (hy : y₁ = y₂) (hM : M₁ = M₂) :
    logistic_reg alpha₁ X₁ y₁ M₁ = logistic_reg alpha₂ X₂ y₂ M₂ ∧
    ∀ (e₁ e₂ : List ℝ) (k : ℕ),
      ((loopStep alpha₁ X₁ y₁ M₁)^[k] { initState X₁ with emitted := e₁ }).theta
      = ((loopStep alpha₁ X₁ y₁ M₁)^[k] { initState X₁ with emitted := e₂ }).theta := by
  subst ha hX hy hM
  refine ⟨rfl, fun e₁ e₂ k => ?_⟩
  exact (iterate_emitted_indep alpha₁ X₁ y₁ M₁ k
    { initState X₁ with emitted := e₁ } { initState X₁ with emitted := e₂ }
    rfl rfl rfl).1

/-- Witness for C4: two literal runs on the same data coincide. -/
theorem logistic_reg_deterministic_witness :
    logistic_reg 1 [[(1 : ℝ)]] [0] 2 = logistic_reg 1 [[(1 : ℝ)]] [0] 2 :=
  (logistic_reg_deterministic 1 1 [[(1 : ℝ)]] [[(1 : ℝ)]] [0] [0] 2 2
    rfl rfl rfl rfl).1

/-- **C5**: removing the per-iteration recomputation of `h` and the
cross-entropy loss evaluation (the diagnostic block) leaves the weight
trajectory, and hence the returned weight vector, unchanged: the loss value
never affects the weight updates or the loop exit. -/
theorem loss_computation_is_diagnostic_only (alpha : ℝ) (X : List (List ℝ))
    (y : List ℝ) (M : ℤ) :
    (∀ k, (runNoDiag alpha X y M k).theta = (run alpha X y M k).theta) ∧
    logistic_regNoDiag alpha X y M = logistic_reg alpha X y M := by
  refine ⟨fun k => (runNoDiag_agree alpha X y M k).1, ?_⟩
  rw [logistic_regNoDiag, logistic_reg, (runNoDiag_agree alpha X y M _).1]

/-- **C9**: with `max_iterations = k ≥ 1` exactly `k` diagnostic loss values
are emitted, one per iteration (each pass appends exactly one value, and the
stream stops growing once the loop exits), and no emitted value is consumed:
the weights and the exit flag are independent of the stream's contents. -/
theorem one_loss_value_emitted_per_iteration (alpha : ℝ) (X : List (List ℝ))
    (y : List ℝ) (M : ℤ) (hM : 1 ≤ M) :
    (run alpha X y M M.toNat).emitted.length = M.toNat ∧
    (∀ j, j < M.toNat → (run alpha X y M (j + 1)).emitted
        = (run alpha X y M j).emitted
          ++ [trainLoss X y (thetaUpd alpha X y (run alpha X y M j).theta)]) ∧
    (∀ k, (run alpha X y M (k + M.toNat)).emitted
        = (run alpha X y M M.toNat).emitted) ∧
    ∀ (e₁ e₂ : List ℝ) (k : ℕ),
      ((loopStep alpha X y M)^[k] { initState X with emitted := e₁ }).theta
        = ((loopStep alpha X y M)^[k] { initState X with emitted := e₂ }).theta ∧
      ((loopStep alpha X y M)^[k] { initState X with emitted := e₁ }).converged
        = ((loopStep alpha X y M)^[k] { initState X with emitted := e₂ }).converged := by
  obtain ⟨_, _, hc, he⟩ := run_char hM M.toNat le_rfl
  have hconv : (run alpha X y M M.toNat).converged = true := by
    rw [hc]
    simp only [decide_eq_true_eq]
    omega
  refine ⟨he, ?_, ?_, ?_⟩
  · intro j hj
    obtain ⟨_, _, hcj, _⟩ := run_char hM j (le_of_lt hj)
    have hcf : (run alpha X y M j).converged = false := by
      rw [hcj]
      simp only [decide_eq_false_iff_not]
      omega
    rw [run_succ, loopStep_of_not_converged hcf, loopBody_emitted]
  · intro k
    rw [run_stationary hconv k]
  · intro e₁ e₂ k
    obtain ⟨g1, _, g3⟩ := iterate_emitted_indep alpha X y M k
      { initState X with emitted := e₁ } { initState X with emitted := e₂ } rfl rfl rfl
    exact ⟨g1, g3⟩

/-- Witness for C9 at `max_iterations = 1`: exactly one loss value printed. -/
theorem one_loss_value_emitted_witness :
    (1 : ℤ) ≤ 1 ∧ (run 1 [[1]] [(0 : ℝ)] 1 (Int.toNat 1)).emitted.length = Int.toNat 1 :=
  ⟨by decide,
    (one_loss_value_emitted_per_iteration 1 [[1]] [(0 : ℝ)] 1 (by decide)).1⟩

/-- **C10**: with `max_iterations ≤ 0` the loop never terminates — the counter
starts at `0`, increments by `1` each pass, is checked for equality only after
the increment, and thus never equals a non-positive bound; the `converged` flag
stays unset after every number of passes. -/
theorem nonpos_max_iterations_never_terminates (alpha : ℝ) (X : List (List ℝ))
    (y : List ℝ) (M : ℤ) (hM : M ≤ 0) :
    ∀ k, (run alpha X y M k).converged = false ∧
      (run alpha X y M k).iterations = k := by
  intro k
  obtain ⟨h1, h2, _⟩ := run_char_nonpos hM k
  exact ⟨h1, h2⟩

/-- Witness for C10 at `max_iterations = 0` after five passes. -/
theorem nonpos_max_iterations_witness :
    (0 : ℤ) ≤ 0 ∧ (run 1 [[1]] [(0 : ℝ)] 0 5).converged = false :=
  ⟨by decide, (nonpos_max_iterations_never_terminates 1 [[1]] [(0 : ℝ)] 0 (by decide) 5).1⟩


/-! ### From list operations to indexed sums -/

lemma sum_zipWith_eq {α β : Type} (f : α → β → ℝ) (d₁ : α) (d₂ : β) :
    ∀ (a : List α) (b : List β) (n : ℕ), a.length = n → b.length = n →
      (List.zipWith f a b).sum = ∑ i ∈ Finset.range n, f (a.getD i d₁) (b.getD i d₂) := by
  intro a
  induction a with
  | nil =>
    intro b n ha _
    simp [← ha]
  | cons x a ih =>
    intro b n ha hb
    cases b with
    | nil => simp at ha hb; omega
    | cons z b' =>
      cases n with
      | zero => simp at ha
      | succ n =>
        have ha' : a.length = n := by simpa using ha
        have hb' : b'.length = n := by simpa using hb
        rw [List.zipWith_cons_cons, List.sum_cons, Finset.sum_range_succ',
          ih b' n ha' hb']
        simp [add_comm]

lemma sigmoid_pos (t : ℝ) : 0 < sigmoid t := by
  unfold sigmoid
  positivity

lemma sigmoid_lt_one (t : ℝ) : sigmoid t < 1 := by
  unfold sigmoid
  rw [div_lt_one (by positivity)]
  linarith [Real.exp_pos (-t)]

lemma length_matVec (X : List (List ℝ)) (w : List ℝ) :
    (matVec X w).length = X.length := by simp [matVec]

lemma length_sigmoid_function (z : List ℝ) :
    (sigmoid_function z).length = z.length := by simp [sigmoid_function]

lemma length_vsub (a b : List ℝ) : (vsub a b).length = min a.length b.length := by
  simp [vsub]

lemma dotv_eq_sum {a b : List ℝ} {n : ℕ} (ha : a.length = n) (hb : b.length = n) :
    dotv a b = ∑ j ∈ Finset.range n, a.getD j 0 * b.getD j 0 :=
  sum_zipWith_eq (· * ·) 0 0 a b n ha hb

lemma vsub_getD {a b : List ℝ} {i : ℕ} (ha : i < a.length) (hb : i < b.length) :
    (vsub a b).getD i 0 = a.getD i 0 - b.getD i 0 := by
  rw [List.getD_eq_getElem _ _ (by rw [length_vsub]; omega)]
  simp only [vsub, List.getElem_zipWith]
  rw [List.getD_eq_getElem _ _ ha, List.getD_eq_getElem _ _ hb]

lemma vscale_getD {c : ℝ} {a : List ℝ} {i : ℕ} (ha : i < a.length) :
    (vscale c a).getD i 0 = c * a.getD i 0 := by
  rw [List.getD_eq_getElem _ _ (by simpa [vscale] using ha)]
  simp only [vscale, List.getElem_map]
  rw [List.getD_eq_getElem _ _ ha]

lemma map_div_getD {a : List ℝ} {d : ℝ} {i : ℕ} (ha : i < a.length) :
    (a.map fun t => t / d).getD i 0 = a.getD i 0 / d := by
  rw [List.getD_eq_getElem _ _ (by simpa using ha)]
  simp only [List.getElem_map]
  rw [List.getD_eq_getElem _ _ ha]

lemma sigmoid_function_getD {z : List ℝ} {i : ℕ} (h : i < z.length) :
    (sigmoid_function z).getD i 0 = sigmoid (z.getD i 0) := by
  rw [List.getD_eq_getElem _ _ (by simpa [sigmoid_function] using h)]
  simp only [sigmoid_function, List.getElem_map]
  rw [List.getD_eq_getElem _ _ h]

/-- The `z` value of sample `i` computed by the code equals the spec's linear
score. -/
lemma matVec_getD_eq_specZ {X : List (List ℝ)} {w : List ℝ} {m n : ℕ} (hX : Wf X m n)
    (hw : w.length = n) {i : ℕ} (h : i < m) :
    (matVec X w).getD i 0 = specZ X w n i := by
  have hXi : i < X.length := by rw [hX.1]; exact h
  have hmi : i < (matVec X w).length := by rw [length_matVec]; exact hXi
  rw [List.getD_eq_getElem _ _ hmi]
  simp only [matVec, List.getElem_map, specZ]
  have hrow : (X[i]).length = n := hX.2 _ (List.getElem_mem hXi)
  rw [dotv_eq_sum hrow hw, List.getD_eq_getElem _ _ hXi]

/-- The predicted probability of sample `i` computed by the code equals the
spec's logistic transform of the linear score. -/
lemma sigmoid_function_getD_eq_specH {X : List (List ℝ)} {w : List ℝ} {m n : ℕ}
    (hX : Wf X m n) (hw : w.length = n) {i : ℕ} (h : i < m) :
    (sigmoid_function (matVec X w)).getD i 0 = specH X w n i := by
  have hmi : i < (matVec X w).length := by rw [length_matVec, hX.1]; exact h
  rw [sigmoid_function_getD hmi, matVec_getD_eq_specZ hX hw h]
  rfl

/-- The residual `h - y` at sample `i`, as the code computes it. -/
lemma residual_getD {X : List (List ℝ)} {w y : List ℝ} {m n : ℕ} (hX : Wf X m n)
    (hw : w.length = n) (hy : y.length = m) {i : ℕ} (h : i < m) :
    (vsub (sigmoid_function (matVec X w)) y).getD i 0
      = specH X w n i - y.getD i 0 := by
  have h1 : i < (sigmoid_function (matVec X w)).length := by
    rw [length_sigmoid_function, length_matVec, hX.1]; exact h
  have h2 : i < y.length := by rw [hy]; exact h
  rw [vsub_getD h1 h2, sigmoid_function_getD_eq_specH hX hw h]

/-- Component `j` of `np.dot(X.T, h - y)` equals the spec's sum over samples. -/
lemma matTvec_residual_getD {X : List (List ℝ)} {w y : List ℝ} {m n : ℕ}
    (hX : Wf X m n) (hm : 1 ≤ m) (hw : w.length = n) (hy : y.length = m)
    {j : ℕ} (hj : j < n) :
    (matTvec X (vsub (sigmoid_function (matVec X w)) y)).getD j 0
      = ∑ i ∈ Finset.range m, (X.getD i []).getD j 0 * (specH X w n i - y.getD i 0) := by
  have hjs : j < shape1 X := by rw [shape1_eq hX hm]; exact hj
  have hjt : j < (matTvec X (vsub (sigmoid_function (matVec X w)) y)).length := by
    rw [length_matTvec]; exact hjs
  have hld : (vsub (sigmoid_function (matVec X w)) y).length = m := by
    rw [length_vsub, length_sigmoid_function, length_matVec, hX.1, hy, min_self]
  rw [List.getD_eq_getElem _ _ hjt]
  simp only [matTvec, List.getElem_map, List.getElem_range]
  rw [sum_zipWith_eq (fun row c => row.getD j 0 * c) [] 0 X _ m hX.1 hld]
  refine Finset.sum_congr rfl fun i hi => ?_
  rw [residual_getD hX hw hy (Finset.mem_range.mp hi)]

/-- Entry `j` of the weight vector produced by one weight update of the code. -/
lemma thetaUpd_getD (alpha : ℝ) (X : List (List ℝ)) (y theta : List ℝ) {j : ℕ}
    (hj₁ : j < theta.length) (hj₂ : j < shape1 X) :
    (thetaUpd alpha X y theta).getD j 0
      = theta.getD j 0 - alpha *
          ((matTvec X (vsub (sigmoid_function (matVec X theta)) y)).getD j 0
            / (y.length : ℝ)) := by
  have hjt : j < (matTvec X (vsub (sigmoid_function (matVec X theta)) y)).length := by
    rw [length_matTvec]; exact hj₂
  have hjm : j < ((matTvec X (vsub (sigmoid_function (matVec X theta)) y)).map
      fun t => t / (y.length : ℝ)).length := by rw [List.length_map]; exact hjt
  have hjv : j < (vscale alpha ((matTvec X (vsub (sigmoid_function (matVec X theta)) y)).map
      fun t => t / (y.length : ℝ))).length := by rw [vscale, List.length_map]; exact hjm
  rw [thetaUpd, vsub_getD hj₁ hjv, vscale_getD hjm, map_div_getD hjt]

/-! ### Claim theorems: per-iteration formulas and prediction -/

/-- Two real lists of the same length agree once all their `getD` entries do. -/
lemma list_eq_of_getD {a b : List ℝ} {n : ℕ} (ha : a.length = n) (hb : b.length = n)
    (h : ∀ j, j < n → a.getD j 0 = b.getD j 0) : a = b := by
  apply List.ext_getElem (by rw [ha, hb])
  intro j hj₁ hj₂
  have hjn : j < n := by rwa [ha] at hj₁
  have hg := h j hjn
  rwa [List.getD_eq_getElem _ _ hj₁, List.getD_eq_getElem _ _ hj₂] at hg

/-- **C1**: for well-shaped inputs (at least one sample and one feature,
binary labels, positive learning rate) one pass of the training-loop body
updates the weights exactly as the spec prescribes: component `j` of the new
weight vector is `w_j - learning_rate * (Σ_i X_{ij}(h_i - y_i)) / n_samples`
with `h_i = 1/(1+exp(-Σ_j X_{ij} w_j))`. -/
theorem training_iteration_update_formula (alpha : ℝ) (X : List (List ℝ))
    (y : List ℝ) (M : ℤ) {m n : ℕ} (hX : Wf X m n) (hm : 1 ≤ m) (hn : 1 ≤ n)
    (hy : y.length = m) (hyv : ∀ v ∈ y, v = 0 ∨ v = 1) (halpha : 0 < alpha)
    (s : LRState) (hθ : s.theta.length = n) :
    (loopBody alpha X y M s).theta = specUpdatedWeights alpha X y s.theta m n := by
  have hs1 : shape1 X = n := shape1_eq hX hm
  have hlhs : (loopBody alpha X y M s).theta.length = n := by
    rw [loopBody_theta, length_thetaUpd, hθ, hs1, min_self]
  have hrhs : (specUpdatedWeights alpha X y s.theta m n).length = n := by
    simp [specUpdatedWeights]
  apply list_eq_of_getD hlhs hrhs
  intro j hjn
  have hjθ : j < s.theta.length := by rw [hθ]; exact hjn
  have hjs : j < shape1 X := by rw [hs1]; exact hjn
  have hR : (specUpdatedWeights alpha X y s.theta m n).getD j 0
      = s.theta.getD j 0 - alpha * specGradient X y s.theta m n j := by
    rw [List.getD_eq_getElem _ _ (by rw [hrhs]; exact hjn)]
    simp only [specUpdatedWeights, List.getElem_map, List.getElem_range]
  have hL : (loopBody alpha X y M s).theta.getD j 0
      = (thetaUpd alpha X y s.theta).getD j 0 := rfl
  rw [hL, hR, thetaUpd_getD alpha X y s.theta hjθ hjs,
    matTvec_residual_getD hX hm hθ hy hjn, specGradient, hy]

/-- Witness for C1 on `X = [[1]]`, `y = [0]`, `alpha = 1`, starting from the
initial state. -/
theorem training_iteration_update_formula_witness :
    Wf [[(1 : ℝ)]] 1 1 ∧ (0 : ℝ) < 1 ∧
    (loopBody 1 [[(1 : ℝ)]] [0] 7 (initState [[(1 : ℝ)]])).theta
      = specUpdatedWeights 1 [[(1 : ℝ)]] [0] (initState [[(1 : ℝ)]]).theta 1 1 :=
  ⟨by decide, zero_lt_one,
    training_iteration_update_formula 1 [[(1 : ℝ)]] [0] 7
      (show Wf [[(1 : ℝ)]] 1 1 by decide) le_rfl le_rfl
      rfl (fun v hv => Or.inl (by rwa [List.mem_singleton] at hv)) zero_lt_one
      (initState [[(1 : ℝ)]]) rfl⟩

/-- **C7**: `predict_prob` computes exactly the elementwise sigmoid of
`X · weights` whenever the column count matches the weight length; it is a
pure function of `(X, weights)` (stateless, so repeated calls with equal
arguments agree), and every output value lies strictly between `0` and `1`. -/
theorem predict_prob_correct {m n : ℕ} (X : List (List ℝ)) (w : List ℝ)
    (hX : Wf X m n) (hw : w.length = n) :
    (predict_prob X w).length = m ∧
    (∀ i, i < m → (predict_prob X w).getD i 0
        = 1 / (1 + Real.exp (-(specZ X w n i)))) ∧
    (∀ p ∈ predict_prob X w, 0 < p ∧ p < 1) ∧
    ∀ (X₂ : List (List ℝ)) (w₂ : List ℝ), X₂ = X → w₂ = w →
      predict_prob X₂ w₂ = predict_prob X w := by
  refine ⟨?_, ?_, ?_, ?_⟩
  · rw [predict_prob, length_sigmoid_function, length_matVec, hX.1]
  · intro i hi
    exact sigmoid_function_getD_eq_specH hX hw hi
  · intro p hp
    rw [predict_prob, sigmoid_function] at hp
    obtain ⟨t, _, rfl⟩ := List.mem_map.mp hp
    exact ⟨sigmoid_pos t, sigmoid_lt_one t⟩
  · intro X₂ w₂ h1 h2
    rw [h1, h2]

/-- Witness for C7 on `X = [[1]]`, `w = [0]`. -/
theorem predict_prob_correct_witness :
    Wf [[(1 : ℝ)]] 1 1 ∧
    ∀ p ∈ predict_prob [[(1 : ℝ)]] [0], 0 < p ∧ p < 1 :=
  ⟨by decide,
    (predict_prob_correct [[(1 : ℝ)]] [0]
      (show Wf [[(1 : ℝ)]] 1 1 by decide) rfl).2.2.1⟩

/-! ### Scalar analysis of the sigmoid and softplus functions -/

lemma one_add_exp_pos (t : ℝ) : 0 < 1 + Real.exp t := by positivity

lemma sigmoid_eq (t : ℝ) : sigmoid t = Real.exp t / (1 + Real.exp t) := by
  unfold sigmoid
  rw [Real.exp_neg]
  have h := (Real.exp_pos t).ne'
  field_simp
  ring

lemma hasDerivAt_phi (t : ℝ) : HasDerivAt phi (sigmoid t) t := by
  have h1 : HasDerivAt (fun u : ℝ => 1 + Real.exp u) (Real.exp t) t :=
    (Real.hasDerivAt_exp t).const_add 1
  have h2 := h1.log (one_add_exp_pos t).ne'
  rw [sigmoid_eq]
  exact h2

lemma hasDerivAt_sigmoid (t : ℝ) :
    HasDerivAt sigmoid (sigmoid t * (1 - sigmoid t)) t := by
  have h0 : HasDerivAt (fun u : ℝ => -u) (-1) t := (hasDerivAt_id t).neg
  have h1 : HasDerivAt (fun u : ℝ => Real.exp (-u)) (Real.exp (-t) * -1) t := h0.exp
  have h2 : HasDerivAt (fun u : ℝ => 1 + Real.exp (-u)) (Real.exp (-t) * -1) t :=
    h1.const_add 1
  have hne : (1 + Real.exp (-t)) ≠ 0 := (one_add_exp_pos (-t)).ne'
  have h3 := h2.inv hne
  have hfun : (fun z : ℝ => (1 + Real.exp (-z))⁻¹) = sigmoid := by
    funext z
    rw [sigmoid, one_div]
  rw [hfun] at h3
  convert h3 using 1
  simp only [sigmoid]
  have hp : 0 < 1 + Real.exp (-t) := one_add_exp_pos (-t)
  field_simp
  ring

lemma sigmoid_deriv_norm_le (t : ℝ) : ‖sigmoid t * (1 - sigmoid t)‖ ≤ 1 / 4 := by
  have h1 := sigmoid_pos t
  have h2 := sigmoid_lt_one t
  rw [Real.norm_eq_abs, abs_of_nonneg (by nlinarith)]
  nlinarith [sq_nonneg (sigmoid t - 1 / 2)]

/-- The sigmoid is `1/4`-Lipschitz. -/
lemma sigmoid_sub_le (a b : ℝ) : |sigmoid b - sigmoid a| ≤ 1 / 4 * |b - a| := by
  have h := Convex.norm_image_sub_le_of_norm_hasDerivWithin_le
    (f := sigmoid) (s := Set.univ)
    (fun x _ => (hasDerivAt_sigmoid x).hasDerivWithinAt)
    (fun x _ => sigmoid_deriv_norm_le x) convex_univ (Set.mem_univ a) (Set.mem_univ b)
  simpa [Real.norm_eq_abs] using h

/-- Second-order upper bound for softplus: its derivative is the sigmoid,
whose variation is at most `1/4` per unit, so a quadratic with coefficient
`1/8` bounds softplus above along any segment. -/
lemma phi_quadratic_upper (a d : ℝ) :
    phi (a + d) ≤ phi a + (sigmoid a * d + 1 / 8 * d ^ 2) := by
  set g : ℝ → ℝ := fun t =>
    phi (a + t * d) - (phi a + (sigmoid a * (t * d) + 1 / 8 * (t * d) ^ 2)) with hgdef
  have hu : ∀ t : ℝ, HasDerivAt (fun u : ℝ => a + u * d) d t := fun t =>
    (hasDerivAt_mul_const d).const_add a
  have hg : ∀ t : ℝ, HasDerivAt g
      (sigmoid (a + t * d) * d - sigmoid a * d - 1 / 4 * t * d ^ 2) t := by
    intro t
    have hphi : HasDerivAt (fun u : ℝ => phi (a + u * d)) (sigmoid (a + t * d) * d) t := by
      have hcomp := (hasDerivAt_phi (a + t * d)).comp t (hu t)
      simpa [Function.comp] using hcomp
    have hlin : HasDerivAt (fun u : ℝ => sigmoid a * (u * d)) (sigmoid a * d) t :=
      (hasDerivAt_mul_const d).const_mul (sigmoid a)
    have hsq : HasDerivAt (fun u : ℝ => (u * d) ^ 2)
        (((2 : ℕ) : ℝ) * (t * d) ^ (2 - 1) * d) t :=
      (hasDerivAt_mul_const d).pow 2
    have hsq8 : HasDerivAt (fun u : ℝ => 1 / 8 * (u * d) ^ 2)
        (1 / 8 * (((2 : ℕ) : ℝ) * (t * d) ^ (2 - 1) * d)) t := hsq.const_mul (1 / 8)
    have hsum := hphi.sub ((hlin.add hsq8).const_add (phi a))
    rw [hgdef]
    convert hsum using 1
    push_cast
    ring
  have hg0 : ∀ t : ℝ, 0 ≤ t →
      sigmoid (a + t * d) * d - sigmoid a * d - 1 / 4 * t * d ^ 2 ≤ 0 := by
    intro t ht
    have hlip := sigmoid_sub_le a (a + t * d)
    have habs : |a + t * d - a| = t * |d| := by
      rw [add_sub_cancel_left, abs_mul, abs_of_nonneg ht]
    rw [habs] at hlip
    have hb : (sigmoid (a + t * d) - sigmoid a) * d ≤ 1 / 4 * (t * |d|) * |d| :=
      calc (sigmoid (a + t * d) - sigmoid a) * d
          ≤ |(sigmoid (a + t * d) - sigmoid a) * d| := le_abs_self _
        _ = |sigmoid (a + t * d) - sigmoid a| * |d| := abs_mul _ _
        _ ≤ 1 / 4 * (t * |d|) * |d| :=
            mul_le_mul_of_nonneg_right hlip (abs_nonneg d)
    nlinarith [hb, sq_abs d]
  have hanti : AntitoneOn g (Set.Icc (0 : ℝ) 1) := by
    refine antitoneOn_of_hasDerivWithinAt_nonpos (convex_Icc 0 1)
      (fun t _ => ((hg t).differentiableAt.continuousAt).continuousWithinAt)
      (fun x _ => (hg x).hasDerivWithinAt) ?_
    intro x hx
    rw [interior_Icc] at hx
    exact hg0 x (le_of_lt hx.1)
  have hle := hanti (Set.left_mem_Icc.mpr zero_le_one)
    (Set.right_mem_Icc.mpr zero_le_one) zero_le_one
  rw [hgdef] at hle
  norm_num at hle
  linarith

/-! ### The cross-entropy loss in softplus form -/

lemma log_sigmoid (z : ℝ) : Real.log (sigmoid z) = z - phi z := by
  rw [sigmoid_eq, Real.log_div (Real.exp_ne_zero z) (one_add_exp_pos z).ne',
    Real.log_exp, phi]

lemma one_sub_sigmoid (z : ℝ) : 1 - sigmoid z = (1 + Real.exp z)⁻¹ := by
  rw [sigmoid_eq]
  have h := (one_add_exp_pos z).ne'
  field_simp

lemma log_one_sub_sigmoid (z : ℝ) : Real.log (1 - sigmoid z) = -phi z := by
  rw [one_sub_sigmoid, Real.log_inv, phi]

/-- The per-sample cross-entropy term written through softplus, valid for any
real label value. -/
lemma cost_term_eq (z v : ℝ) :
    -v * Real.log (sigmoid z) - (1 - v) * Real.log (1 - sigmoid z)
      = phi z - v * z := by
  rw [log_sigmoid, log_one_sub_sigmoid]
  ring

/-- The diagnostic training loss as an indexed sum: the mean over samples of
`phi z_i - y_i z_i`. -/
lemma trainLoss_eq_sum {X : List (List ℝ)} {y θ : List ℝ} {m n : ℕ} (hX : Wf X m n)
    (hy : y.length = m) (hθ : θ.length = n) :
    trainLoss X y θ
      = (∑ i ∈ Finset.range m,
          (phi (specZ X θ n i) - y.getD i 0 * specZ X θ n i)) / (m : ℝ) := by
  have hlh : (sigmoid_function (matVec X θ)).length = m := by
    rw [length_sigmoid_function, length_matVec, hX.1]
  rw [trainLoss, cost_function, lmean]
  have hlen : (List.zipWith
      (fun hi yi => -yi * Real.log hi - (1 - yi) * Real.log (1 - hi))
      (sigmoid_function (matVec X θ)) y).length = m := by
    rw [List.length_zipWith, hlh, hy, min_self]
  rw [hlen, sum_zipWith_eq _ 0 0 _ _ m hlh hy]
  congr 1
  refine Finset.sum_congr rfl fun i hi => ?_
  have him := Finset.mem_range.mp hi
  rw [sigmoid_function_getD_eq_specH hX hθ him]
  exact cost_term_eq (specZ X θ n i) (y.getD i 0)

/-! ### Gradient-descent algebra -/

/-- Entry `j` of the code's weight update in spec form. -/
lemma thetaUpd_getD_spec {alpha : ℝ} {X : List (List ℝ)} {y θ : List ℝ} {m n : ℕ}
    (hX : Wf X m n) (hm : 1 ≤ m) (hy : y.length = m) (hθ : θ.length = n)
    {j : ℕ} (hj : j < n) :
    (thetaUpd alpha X y θ).getD j 0
      = θ.getD j 0 - alpha * specGradient X y θ m n j := by
  have hjθ : j < θ.length := by rw [hθ]; exact hj
  have hjs : j < shape1 X := by rw [shape1_eq hX hm]; exact hj
  rw [thetaUpd_getD alpha X y θ hjθ hjs, matTvec_residual_getD hX hm hθ hy hj,
    specGradient, hy]

/-- The linear score after one weight update moves by `-alpha` times the
alignment of the row with the gradient. -/
lemma specZ_thetaUpd {alpha : ℝ} {X : List (List ℝ)} {y θ : List ℝ} {m n : ℕ}
    (hX : Wf X m n) (hm : 1 ≤ m) (hy : y.length = m) (hθ : θ.length = n) (i : ℕ) :
    specZ X (thetaUpd alpha X y θ) n i
      = specZ X θ n i - alpha * ∑ j ∈ Finset.range n,
          (X.getD i []).getD j 0 * specGradient X y θ m n j := by
  rw [specZ, specZ, Finset.mul_sum, ← Finset.sum_sub_distrib]
  refine Finset.sum_congr rfl fun j hj => ?_
  rw [thetaUpd_getD_spec hX hm hy hθ (Finset.mem_range.mp hj)]
  ring

/-- Summing the residual-times-row-alignment over samples yields the squared
gradient norm scaled by the sample count. -/
lemma sum_swap_grad {m n : ℕ} (A : ℕ → ℕ → ℝ) (D : ℕ → ℝ) (g : ℕ → ℝ) (mR : ℝ)
    (hg : ∀ j ∈ Finset.range n, ∑ i ∈ Finset.range m, A i j * D i = mR * g j) :
    ∑ i ∈ Finset.range m, D i * (∑ j ∈ Finset.range n, A i j * g j)
      = mR * ∑ j ∈ Finset.range n, g j ^ 2 := by
  calc ∑ i ∈ Finset.range m, D i * ∑ j ∈ Finset.range n, A i j * g j
      = ∑ i ∈ Finset.range m, ∑ j ∈ Finset.range n, D i * (A i j * g j) := by
        refine Finset.sum_congr rfl fun i _ => ?_
        rw [Finset.mul_sum]
    _ = ∑ j ∈ Finset.range n, ∑ i ∈ Finset.range m, D i * (A i j * g j) :=
        Finset.sum_comm
    _ = ∑ j ∈ Finset.range n, g j * ∑ i ∈ Finset.range m, A i j * D i := by
        refine Finset.sum_congr rfl fun j _ => ?_
        rw [Finset.mul_sum]
        refine Finset.sum_congr rfl fun i _ => ?_
        ring
    _ = ∑ j ∈ Finset.range n, g j * (mR * g j) := by
        refine Finset.sum_congr rfl fun j hj => ?_
        rw [hg j hj]
    _ = mR * ∑ j ∈ Finset.range n, g j ^ 2 := by
        rw [Finset.mul_sum]
        refine Finset.sum_congr rfl fun j _ => ?_
        ring

/-- Cauchy-Schwarz row by row: the summed squared alignments are bounded by
the squared Frobenius weight of the matrix times the squared gradient norm. -/
lemma sum_sq_cs {m n : ℕ} (A : ℕ → ℕ → ℝ) (g : ℕ → ℝ) :
    ∑ i ∈ Finset.range m, (∑ j ∈ Finset.range n, A i j * g j) ^ 2
      ≤ (∑ i ∈ Finset.range m, ∑ j ∈ Finset.range n, A i j ^ 2)
        * ∑ j ∈ Finset.range n, g j ^ 2 := by
  calc ∑ i ∈ Finset.range m, (∑ j ∈ Finset.range n, A i j * g j) ^ 2
      ≤ ∑ i ∈ Finset.range m,
          (∑ j ∈ Finset.range n, A i j ^ 2) * ∑ j ∈ Finset.range n, g j ^ 2 :=
        Finset.sum_le_sum fun i _ => Finset.sum_mul_sq_le_sq_mul_sq _ _ _
    _ = (∑ i ∈ Finset.range m, ∑ j ∈ Finset.range n, A i j ^ 2)
        * ∑ j ∈ Finset.range n, g j ^ 2 := (Finset.sum_mul _ _ _).symm

/-- Numeric assembly of the descent estimate: a step along the negative
gradient with rate at most `8 mR / (C + 1)` cannot increase the loss. -/
lemma descent_assemble (S Sf T U C G mR alpha : ℝ)
    (hsum : Sf ≤ S - alpha * T + 1 / 8 * alpha ^ 2 * U)
    (hT : T = mR * G) (hU : U ≤ C * G) (hG : 0 ≤ G) (hC : 0 ≤ C)
    (halpha : 0 < alpha) (haC : alpha * (C + 1) ≤ 8 * mR) : Sf ≤ S := by
  have haC' : alpha * C ≤ 8 * mR := by nlinarith
  have h1 : 1 / 8 * alpha ^ 2 * U ≤ 1 / 8 * alpha ^ 2 * (C * G) :=
    mul_le_mul_of_nonneg_left hU (by positivity)
  have hfac : (0 : ℝ) ≤ 1 / 8 * alpha * G :=
    mul_nonneg (mul_nonneg (by norm_num) halpha.le) hG
  have h2 := mul_le_mul_of_nonneg_left haC' hfac
  have hT' : alpha * T = alpha * (mR * G) := by rw [hT]
  nlinarith [h1, h2, hT', hsum]

/-- One weight update of the code does not increase the diagnostic training
loss, provided the learning rate is at most `8 n_samples / (‖X‖_F² + 1)`. -/
lemma descent_step {X : List (List ℝ)} {y : List ℝ} {m n : ℕ} (hX : Wf X m n)
    (hm : 1 ≤ m) (hy : y.length = m) {θ : List ℝ} (hθ : θ.length = n)
    {alpha : ℝ} (halpha : 0 < alpha)
    (hsmall : alpha ≤ 8 * m /
      ((∑ i ∈ Finset.range m, ∑ j ∈ Finset.range n, ((X.getD i []).getD j 0) ^ 2) + 1)) :
    trainLoss X y (thetaUpd alpha X y θ) ≤ trainLoss X y θ := by
  have hmR : (0 : ℝ) < (m : ℝ) := by
    have : 0 < m := hm
    exact_mod_cast this
  have hθ' : (thetaUpd alpha X y θ).length = n := by
    rw [length_thetaUpd, hθ, shape1_eq hX hm, min_self]
  have hCnn : (0 : ℝ) ≤ ∑ i ∈ Finset.range m, ∑ j ∈ Finset.range n,
      ((X.getD i []).getD j 0) ^ 2 :=
    Finset.sum_nonneg fun i _ => Finset.sum_nonneg fun j _ => sq_nonneg _
  have hGnn : (0 : ℝ) ≤ ∑ j ∈ Finset.range n, specGradient X y θ m n j ^ 2 :=
    Finset.sum_nonneg fun j _ => sq_nonneg _
  have haC : alpha * ((∑ i ∈ Finset.range m, ∑ j ∈ Finset.range n,
      ((X.getD i []).getD j 0) ^ 2) + 1) ≤ 8 * m := by
    have hpos : (0 : ℝ) < (∑ i ∈ Finset.range m, ∑ j ∈ Finset.range n,
        ((X.getD i []).getD j 0) ^ 2) + 1 := by linarith
    exact (le_div_iff hpos).mp hsmall
  have hg : ∀ j ∈ Finset.range n,
      ∑ i ∈ Finset.range m, (X.getD i []).getD j 0 * (specH X θ n i - y.getD i 0)
        = (m : ℝ) * specGradient X y θ m n j := by
    intro j _
    rw [specGradient]
    field_simp
  have hswap : ∑ i ∈ Finset.range m, (specH X θ n i - y.getD i 0) *
        (∑ j ∈ Finset.range n, (X.getD i []).getD j 0 * specGradient X y θ m n j)
      = (m : ℝ) * ∑ j ∈ Finset.range n, specGradient X y θ m n j ^ 2 :=
    sum_swap_grad (fun i j => (X.getD i []).getD j 0)
      (fun i => specH X θ n i - y.getD i 0)
      (fun j => specGradient X y θ m n j) (m : ℝ) hg
  have hcs : ∑ i ∈ Finset.range m,
        (∑ j ∈ Finset.range n, (X.getD i []).getD j 0 * specGradient X y θ m n j) ^ 2
      ≤ (∑ i ∈ Finset.range m, ∑ j ∈ Finset.range n, ((X.getD i []).getD j 0) ^ 2)
        * ∑ j ∈ Finset.range n, specGradient X y θ m n j ^ 2 :=
    sum_sq_cs (fun i j => (X.getD i []).getD j 0) (fun j => specGradient X y θ m n j)
  have per : ∀ i ∈ Finset.range m,
      phi (specZ X (thetaUpd alpha X y θ) n i)
          - y.getD i 0 * specZ X (thetaUpd alpha X y θ) n i
        ≤ (phi (specZ X θ n i) - y.getD i 0 * specZ X θ n i)
            - alpha * ((specH X θ n i - y.getD i 0) *
              (∑ j ∈ Finset.range n, (X.getD i []).getD j 0 * specGradient X y θ m n j))
            + 1 / 8 * alpha ^ 2 *
              (∑ j ∈ Finset.range n,
                (X.getD i []).getD j 0 * specGradient X y θ m n j) ^ 2 := by
    intro i _
    have hq := phi_quadratic_upper (specZ X θ n i)
      (-(alpha * ∑ j ∈ Finset.range n,
        (X.getD i []).getD j 0 * specGradient X y θ m n j))
    have hzz : specZ X (thetaUpd alpha X y θ) n i
        = specZ X θ n i + -(alpha * ∑ j ∈ Finset.range n,
            (X.getD i []).getD j 0 * specGradient X y θ m n j) := by
      rw [specZ_thetaUpd hX hm hy hθ i]; ring
    rw [hzz]
    have hσ : sigmoid (specZ X θ n i) = specH X θ n i := rfl
    rw [hσ] at hq
    nlinarith [hq]
  have hsum2 : ∑ i ∈ Finset.range m,
      (phi (specZ X (thetaUpd alpha X y θ) n i)
        - y.getD i 0 * specZ X (thetaUpd alpha X y θ) n i)
      ≤ (∑ i ∈ Finset.range m, (phi (specZ X θ n i) - y.getD i 0 * specZ X θ n i))
        - alpha * ∑ i ∈ Finset.range m, ((specH X θ n i - y.getD i 0) *
            (∑ j ∈ Finset.range n, (X.getD i []).getD j 0 * specGradient X y θ m n j))
        + 1 / 8 * alpha ^ 2 * ∑ i ∈ Finset.range m,
            (∑ j ∈ Finset.range n,
              (X.getD i []).getD j 0 * specGradient X y θ m n j) ^ 2 := by
    have hstep := Finset.sum_le_sum per
    calc ∑ i ∈ Finset.range m,
        (phi (specZ X (thetaUpd alpha X y θ) n i)
          - y.getD i 0 * specZ X (thetaUpd alpha X y θ) n i)
        ≤ ∑ i ∈ Finset.range m,
          ((phi (specZ X θ n i) - y.getD i 0 * specZ X θ n i)
            - alpha * ((specH X θ n i - y.getD i 0) *
              (∑ j ∈ Finset.range n, (X.getD i []).getD j 0 * specGradient X y θ m n j))
            + 1 / 8 * alpha ^ 2 *
              (∑ j ∈ Finset.range n,
                (X.getD i []).getD j 0 * specGradient X y θ m n j) ^ 2) := hstep
      _ = _ := by
          rw [Finset.sum_add_distrib, Finset.sum_sub_distrib, ← Finset.mul_sum,
            ← Finset.mul_sum]
  rw [trainLoss_eq_sum hX hy hθ', trainLoss_eq_sum hX hy hθ,
    div_le_div_iff_of_pos_right hmR]
  exact descent_assemble _ _ _ _ _ _ _ _ hsum2 hswap hcs hGnn hCnn halpha haC

/-- **C8**: for every well-shaped feature matrix and binary label vector there
is a positive threshold (here `8 n_samples / (‖X‖_F² + 1)`) such that for every
learning rate in `(0, threshold]` the mean cross-entropy training loss is
non-increasing from each iteration of the training loop to the next, for every
iteration index. -/
theorem training_loss_monotone_for_small_learning_rate (X : List (List ℝ))
    (y : List ℝ) (M : ℤ) {m n : ℕ} (hX : Wf X m n) (hm : 1 ≤ m)
    (hy : y.length = m) (hyv : ∀ v ∈ y, v = 0 ∨ v = 1) :
    ∃ alpha₀ : ℝ, 0 < alpha₀ ∧ ∀ alpha : ℝ, 0 < alpha → alpha ≤ alpha₀ →
      ∀ k : ℕ, trainLoss X y (run alpha X y M (k + 1)).theta
        ≤ trainLoss X y (run alpha X y M k).theta := by
  have hmR : (0 : ℝ) < (m : ℝ) := by
    have h0 : 0 < m := hm
    exact_mod_cast h0
  have hCnn : (0 : ℝ) ≤ ∑ i ∈ Finset.range m, ∑ j ∈ Finset.range n,
      ((X.getD i []).getD j 0) ^ 2 :=
    Finset.sum_nonneg fun i _ => Finset.sum_nonneg fun j _ => sq_nonneg _
  refine ⟨8 * m / ((∑ i ∈ Finset.range m, ∑ j ∈ Finset.range n,
      ((X.getD i []).getD j 0) ^ 2) + 1), ?_, ?_⟩
  · apply div_pos (by nlinarith) (by nlinarith)
  · intro alpha halpha hle k
    cases hc : (run alpha X y M k).converged with
    | true =>
      rw [run_succ, loopStep_of_converged hc]
    | false =>
      rw [run_succ, loopStep_of_not_converged hc, loopBody_theta]
      exact descent_step hX hm hy
        (by rw [run_theta_length, shape1_eq hX hm]) halpha hle

/-- Witness for C8 on `X = [[1]]`, `y = [0]`. -/
theorem training_loss_monotone_witness :
    Wf [[(1 : ℝ)]] 1 1 ∧
    ∃ alpha₀ : ℝ, 0 < alpha₀ ∧ ∀ alpha : ℝ, 0 < alpha → alpha ≤ alpha₀ →
      ∀ k : ℕ, trainLoss [[(1 : ℝ)]] [0] (run alpha [[(1 : ℝ)]] [0] 3 (k + 1)).theta
        ≤ trainLoss [[(1 : ℝ)]] [0] (run alpha [[(1 : ℝ)]] [0] 3 k).theta :=
  ⟨by decide,
    training_loss_monotone_for_small_learning_rate [[(1 : ℝ)]] [0] 3
      (show Wf [[(1 : ℝ)]] 1 1 by decide) le_rfl rfl
      (fun v hv => Or.inl (by rwa [List.mem_singleton] at hv))⟩

end MLScratch
